import Mathlib

/-!
Verification of the affiliation-classification core of `pharma_papers.py`
(PubMed pharmaceutical/biotech papers finder).

Strings are modelled as lists of characters (`Str`).  Python's
case-insensitive matching (`str.lower`, `re.IGNORECASE`) is modelled by an
explicit ASCII case map `lowerChar`; every keyword table in the source is
pure ASCII, so this is faithful on all inputs the tables can match.
Python's `\s` class is modelled by its ASCII members.  The regular
expressions of the source are small enough that their Python semantics
(leftmost start position, greedy one-or-more with backtracking, alternation
tried in written order) are implemented directly as recursive functions.

The Python keyword tables are `set` literals; `set` iteration order is
unspecified (hash-based).  They are modelled as lists in the order of the
source literals.  All results proved below that depend on a scan of a table
either do not depend on the iteration order or are stated relative to the
fragment the scan selects.
-/

abbrev Str := List Char

def toL (s : String) : Str := s.data

def upperTable : List (Char × Char) :=
  [('A', 'a'), ('B', 'b'), ('C', 'c'), ('D', 'd'), ('E', 'e'), ('F', 'f'),
   ('G', 'g'), ('H', 'h'), ('I', 'i'), ('J', 'j'), ('K', 'k'), ('L', 'l'),
   ('M', 'm'), ('N', 'n'), ('O', 'o'), ('P', 'p'), ('Q', 'q'), ('R', 'r'),
   ('S', 's'), ('T', 't'), ('U', 'u'), ('V', 'v'), ('W', 'w'), ('X', 'x'),
   ('Y', 'y'), ('Z', 'z')]

def lowerChar (c : Char) : Char :=
  match upperTable.find? (fun p => p.1 == c) with
  | some p => p.2
  | none => c

def isTermC (c : Char) : Bool := c == ',' || c == ';' || c == '.'

def isPySpace (c : Char) : Bool :=
  c == ' ' || c == '\t' || c == '\n' || c == '\r' || c == '\x0b' || c == '\x0c'

def isUpperAZ (c : Char) : Bool := 'A' ≤ c && c ≤ 'Z'

def isLowerAZ (c : Char) : Bool := 'a' ≤ c && c ≤ 'z'

def isDigit09 (c : Char) : Bool := '0' ≤ c && c ≤ '9'

def isAlphaAZ (c : Char) : Bool := isUpperAZ c || isLowerAZ c

def isWordClass (c : Char) : Bool := isAlphaAZ c || isDigit09 c || isPySpace c

def isPrefixL : Str → Str → Bool
  | [], _ => true
  | _ :: _, [] => false
  | a :: as, b :: bs => a == b && isPrefixL as bs

def isPrefixCI : Str → Str → Bool
  | [], _ => true
  | _ :: _, [] => false
  | a :: as, b :: bs => lowerChar a == lowerChar b && isPrefixCI as bs

def findCI (needle : Str) : Str → Option Nat
  | [] => if needle.isEmpty then some 0 else none
  | c :: rest => if isPrefixCI needle (c :: rest) then some 0 else (findCI needle rest).map (· + 1)

def containsCI (needle hay : Str) : Bool := (findCI needle hay).isSome

def stripL (l : Str) : Str :=
  ((l.dropWhile isPySpace).reverse.dropWhile isPySpace).reverse

/-! Keyword tables of the source (module-level constants, lines 25-52). -/

def PHARMA_BIOTECH_KEYWORDS : List Str :=
  [toL "pharma", toL "pharmaceutical", toL "therapeutics", toL "biopharm", toL "biotech",
   toL "biologics", toL "laboratories", toL "medicines", toL "vaccines", toL "health products",
   toL "bioscience", toL "life science", toL "drug", toL "biopharma", toL "genomics",
   toL "diagnostics", toL "medical technology", toL "biotechnology"]

def ACADEMIC_KEYWORDS : List Str :=
  [toL "university", toL "college", toL "institute", toL "school of medicine", toL "academy",
   toL "hospital", toL "medical center", toL "clinic", toL "medical school", toL "faculty",
   toL "department of", toL "center for", toL "research center", toL "national institute",
   toL "foundation", toL "laboratory of", toL "health system"]

def KNOWN_COMPANIES : List Str :=
  [toL "pfizer", toL "merck", toL "novartis", toL "roche", toL "sanofi", toL "gsk",
   toL "glaxosmithkline", toL "astrazeneca", toL "johnson & johnson", toL "j&j",
   toL "janssen", toL "lilly", toL "eli lilly", toL "abbvie", toL "bristol myers squibb",
   toL "bms", toL "gilead", toL "amgen", toL "biogen", toL "regeneron", toL "moderna",
   toL "vertex", toL "bayer", toL "boehringer ingelheim", toL "genentech", toL "takeda",
   toL "novo nordisk", toL "astellas", toL "daiichi sankyo", toL "celgene", toL "servier",
   toL "teva", toL "otsuka", toL "eisai", toL "alexion", toL "biomarin", toL "incyte",
   toL "illumina", toL "iqvia", toL "medimmune", toL "grail", toL "23andme", toL "beam",
   toL "editas", toL "crispr", toL "intellia", toL "allogene", toL "sarepta",
   toL "bluebird bio", toL "sage therapeutics", toL "alnylam", toL "mirati", toL "seagen",
   toL "blueprint medicines", toL "acceleron", toL "exelixis", toL "guardant health",
   toL "applied therapeutics"]

/-! The regex of the known-company branch, `(fragment[^,;.]*)` with
`re.IGNORECASE`, searched leftmost on the original-case affiliation. -/

def knownCapture (c s : Str) : Option Str :=
  match findCI c s with
  | none => none
  | some i =>
    some ((s.drop i).take c.length ++ ((s.drop i).drop c.length).takeWhile (fun ch => !(isTermC ch)))

/-! The three generic name-extraction regexes (source lines 188-192) with
Python search semantics: start positions tried left to right; the greedy
`[A-Za-z0-9\s]+` tried from its longest length down; alternation suffixes
tried in written order (an optional trailing `\.?` tried with the dot
first). -/

def typeSuffixes : List Str :=
  [toL "Pharma", toL "Therapeutics", toL "Biotech", toL "Biologics", toL "Laboratories",
   toL "Sciences", toL "Health", toL "Medical", toL "Genomics", toL "Diagnostics"]

def legalSuffixes : List Str :=
  [toL "Inc.", toL "LLC", toL "Ltd.", toL "Ltd", toL "GmbH", toL "Corp.", toL "Corp",
   toL "S.A.", toL "Co.", toL "B.V."]

def tryK (sufs : List Str) (c0 : Char) (cs : Str) : Nat → Option Str
  | 0 => none
  | k + 1 =>
    match sufs.find? (fun suf => isPrefixL suf (cs.drop (k + 1))) with
    | some suf => some (c0 :: cs.take (k + 1) ++ suf)
    | none => tryK sufs c0 cs k

def tryK3 (sufs : List Str) (c0 : Char) (cs : Str) : Nat → Option Str
  | 0 => none
  | k + 1 =>
    let tail := cs.drop (k + 1)
    let w := (tail.takeWhile isPySpace).length
    if 1 ≤ w && sufs.any (fun suf => isPrefixL suf (tail.drop w)) then
      some (c0 :: cs.take (k + 1))
    else tryK3 sufs c0 cs k

def pat1At : Str → Option Str
  | [] => none
  | c0 :: cs =>
    if isUpperAZ c0 then tryK typeSuffixes c0 cs (cs.takeWhile isWordClass).length else none

def pat2At : Str → Option Str
  | [] => none
  | c0 :: cs =>
    if isUpperAZ c0 then tryK legalSuffixes c0 cs (cs.takeWhile isWordClass).length else none

def pat3At : Str → Option Str
  | [] => none
  | c0 :: cs =>
    if isUpperAZ c0 then tryK3 legalSuffixes c0 cs (cs.takeWhile isWordClass).length else none

def searchPat (f : Str → Option Str) : Str → Option Str
  | [] => none
  | c :: rest =>
    match f (c :: rest) with
    | some r => some r
    | none => searchPat f rest

/-! `is_company_affiliation` (source lines 155-202). -/

def scanKnown (s : Str) : List Str → Option Str
  | [] => none
  | c :: rest => if containsCI c s then some c else scanKnown s rest

def genericName (s : Str) : Str :=
  match searchPat pat1At s with
  | some cap => stripL cap
  | none =>
    match searchPat pat2At s with
    | some cap => stripL cap
    | none =>
      match searchPat pat3At s with
      | some cap => stripL cap
      | none => if 50 < s.length then s.take 50 ++ toL "..." else s

def is_company_affiliation (s : Str) : Bool × Option Str :=
  match scanKnown s KNOWN_COMPANIES with
  | some c =>
    (true, some (match knownCapture c s with
                 | some cap => stripL cap
                 | none => c))
  | none =>
    if ACADEMIC_KEYWORDS.any (fun k => containsCI k s) then (false, none)
    else if PHARMA_BIOTECH_KEYWORDS.any (fun k => containsCI k s) then
      (true, some (genericName s))
    else (false, none)

/-! Raw PubMed record shapes and `extract_author_info` (source lines 204-268).
Optional dictionary keys are modelled as `Option` fields; a key access on a
missing key raises `KeyError` in Python, which the source catches, so the
corresponding `none` cases below land in the handler's behaviour. -/

inductive StrOrList where
  | str (s : Str)
  | list (l : List Str)
deriving DecidableEq

structure RawAuthor where
  lastName : Option Str
  foreName : Option Str
  initials : Option Str
  affiliationInfo : Option (List (Option Str))
  affiliation : Option StrOrList
deriving DecidableEq

structure RawArticle where
  articleTitle : Option Str
  journalPubDate : Option (List (Str × Str))
  authorList : Option (List (Option RawAuthor))
deriving DecidableEq

structure RawPaper where
  pmid : Option Str
  article : Option RawArticle
deriving DecidableEq

structure AuthorInfo where
  name : Str
  affiliations : List Str
  is_corresponding : Bool
  email : Str
deriving DecidableEq

def emailLocalClass (c : Char) : Bool :=
  isAlphaAZ c || isDigit09 c || c == '.' || c == '_' || c == '%' || c == '+' || c == '-'

def emailDomClass (c : Char) : Bool :=
  isAlphaAZ c || isDigit09 c || c == '.' || c == '-'

def tryDom (afterAt : Str) : Nat → Option Str
  | 0 => none
  | m + 1 =>
    match afterAt.drop (m + 1) with
    | '.' :: tl =>
      let lets := tl.takeWhile isAlphaAZ
      if 2 ≤ lets.length then some (afterAt.take (m + 1) ++ '.' :: lets)
      else tryDom afterAt m
    | _ => tryDom afterAt m

def emailMatchAt (rest : Str) : Option Str :=
  let localRun := rest.takeWhile emailLocalClass
  if localRun.isEmpty then none
  else
    match rest.drop localRun.length with
    | '@' :: afterAt =>
      match tryDom afterAt (afterAt.takeWhile emailDomClass).length with
      | some dom => some (localRun ++ '@' :: dom)
      | none => none
    | _ => none

def emailSearch : Str → Option Str
  | [] => none
  | c :: rest =>
    match emailMatchAt (c :: rest) with
    | some e => some e
    | none => emailSearch rest

def authorName (a : RawAuthor) : Str :=
  let last := a.lastName.getD []
  let fore := a.foreName.getD []
  let inits := a.initials.getD []
  if fore ≠ [] then last ++ toL ", " ++ fore else last ++ toL ", " ++ inits

def gatherAffiliations (a : RawAuthor) : List Str :=
  match a.affiliationInfo with
  | some entries => entries.map (fun e => e.getD [])
  | none =>
    match a.affiliation with
    | some (.str s) => [s]
    | some (.list l) => l
    | none => []

def emailCorrStep (acc : Str × Bool) (aff : Str) : Str × Bool :=
  (match emailSearch aff with
   | some m => m
   | none => acc.1,
   acc.2 || containsCI (toL "correspond") aff)

def extract_author_info (p : RawPaper) : List AuthorInfo :=
  match p.article with
  | none => []
  | some art =>
    (art.authorList.getD []).foldl
      (fun acc item =>
        match item with
        | none => acc
        | some a =>
          let affs := gatherAffiliations a
          let ec := affs.foldl emailCorrStep ([], false)
          acc ++ [⟨authorName a, affs, ec.2, ec.1⟩])
      []

/-! `process_papers` per-paper body (source lines 283-339). -/

structure ReportRow where
  pubmedID : Str
  title : Str
  publicationDate : Str
  nonAcademicAuthors : List Str
  companyAffiliations : List Str
  correspondingAuthorEmail : Str
deriving DecidableEq

def insertSet (l : List Str) (x : Str) : List Str := if l.contains x then l else l ++ [x]

def findCompanyHit : List Str → Option (Option Str)
  | [] => none
  | aff :: rest =>
    if (is_company_affiliation aff).1 then some (is_company_affiliation aff).2
    else findCompanyHit rest

def emailStep (em : Str) (a : AuthorInfo) : Str :=
  if a.is_corresponding && a.email ≠ [] then a.email
  else if a.email ≠ [] && em == [] then a.email
  else em

def authorStep (acc : List Str × List Str × Str) (a : AuthorInfo) : List Str × List Str × Str :=
  let cc : List Str × List Str :=
    match findCompanyHit a.affiliations with
    | some cn? =>
      (acc.1 ++ [a.name],
       match cn? with
       | some cn => if cn ≠ [] then insertSet acc.2.1 cn else acc.2.1
       | none => acc.2.1)
    | none => (acc.1, acc.2.1)
  (cc.1, cc.2, emailStep acc.2.2 a)

def lookupKey (m : List (Str × Str)) (k : Str) : Option Str :=
  (m.find? (fun kv => kv.1 == k)).map (fun kv => kv.2)

def getKeyD (m : List (Str × Str)) (k : Str) : Str := (lookupKey m k).getD []

def process_paper (p : RawPaper) : Option ReportRow :=
  match p.pmid with
  | none => none
  | some pmid =>
    match p.article with
    | none => none
    | some art =>
      match art.articleTitle with
      | none => none
      | some title =>
        match art.journalPubDate with
        | none => none
        | some dateParts =>
          let pubDate :=
            if (lookupKey dateParts (toL "PubDate")).isSome then
              stripL (getKeyD dateParts (toL "Year") ++ toL " " ++
                      getKeyD dateParts (toL "Month") ++ toL " " ++
                      getKeyD dateParts (toL "Day"))
            else toL "Unknown"
          let authorsInfo := extract_author_info p
          let agg := authorsInfo.foldl authorStep ([], [], [])
          if agg.1 ≠ [] then
            some ⟨pmid, title, pubDate, agg.1, agg.2.1, agg.2.2⟩
          else none

def process_papers (papers : List RawPaper) : List ReportRow :=
  papers.filterMap process_paper

/-! Spec-side selector definitions, written from the specification's words,
to be compared with the source-derived functions above. -/

/-- Claim-side (spec §3 invariant): the email of the first author in list
order whose `is_corresponding` flag is true and whose email is non-empty. -/
def firstCorrEmail (l : List AuthorInfo) : Option Str :=
  (l.find? (fun a => a.is_corresponding && a.email ≠ [])).map (fun a => a.email)

/-- Claim-side: the email of the first author in list order with a
non-empty email. -/
def firstAnyEmail (l : List AuthorInfo) : Option Str :=
  (l.find? (fun a => a.email ≠ [])).map (fun a => a.email)

/-- The claim's selection rule: first corresponding author with a non-empty
email, else first author with a non-empty email, else empty. -/
def claimEmail (l : List AuthorInfo) : Str :=
  match firstCorrEmail l with
  | some e => e
  | none => (firstAnyEmail l).getD []

/-- The email of the last author in list order whose `is_corresponding`
flag is true and whose email is non-empty. -/
def lastCorrEmail : List AuthorInfo → Option Str
  | [] => none
  | a :: l =>
    match lastCorrEmail l with
    | some e => some e
    | none => if a.is_corresponding && a.email ≠ [] then some a.email else none

/-- The selection rule the code actually implements: last corresponding
author with a non-empty email, else first author with a non-empty email,
else empty. -/
def amendedEmail (l : List AuthorInfo) : Str :=
  (lastCorrEmail l).getD ((firstAnyEmail l).getD [])

/-- Claim-side (spec §4.1 rule 1 wording): the contiguous run of the
original-case string starting at the (leftmost, case-insensitive) matched
fragment and extending up to the first comma, semicolon or period,
whitespace-stripped; literal fragment if no run is found. -/
def specKnownName (c s : Str) : Str :=
  match findCI c s with
  | some i => stripL ((s.drop i).takeWhile (fun ch => !(isTermC ch)))
  | none => c

/-- Claim-side (spec §4.1 rule 3 wording): the three extraction patterns
tried in fixed order, first match (stripped) wins; otherwise the first 50
characters with a trailing ellipsis marker exactly when the string is
longer than 50 characters. -/
def specGenericName (s : Str) : Str :=
  match [searchPat pat1At s, searchPat pat2At s, searchPat pat3At s].findSome? id with
  | some cap => stripL cap
  | none => if 50 < s.length then s.take 50 ++ toL "..." else s

/-- The names of the authors whose affiliation scan produced a company
hit, in author-list order. -/
def hitNames (l : List AuthorInfo) : List Str :=
  l.filterMap (fun a => if (findCompanyHit a.affiliations).isSome then some a.name else none)

/-! Helper lemmas about the character-level primitives. -/

theorem isTermC_lowerChar (b : Char) : isTermC (lowerChar b) = isTermC b := by
  unfold lowerChar
  cases h : upperTable.find? (fun p => p.1 == b) with
  | none => rfl
  | some p =>
    have hmem : p ∈ upperTable := List.mem_of_find?_eq_some h
    have hp := List.find?_some h
    have hb : p.1 = b := eq_of_beq hp
    subst hb
    exact (by decide : ∀ q ∈ upperTable, isTermC q.2 = isTermC q.1) p hmem

theorem isPySpace_lowerChar (b : Char) : isPySpace (lowerChar b) = isPySpace b := by
  unfold lowerChar
  cases h : upperTable.find? (fun p => p.1 == b) with
  | none => rfl
  | some p =>
    have hmem : p ∈ upperTable := List.mem_of_find?_eq_some h
    have hp := List.find?_some h
    have hb : p.1 = b := eq_of_beq hp
    subst hb
    exact (by decide : ∀ q ∈ upperTable, isPySpace q.2 = isPySpace q.1) p hmem

theorem isPySpace_of_upperAZ {c : Char} (h : isUpperAZ c = true) : isPySpace c = false := by
  unfold isUpperAZ at h
  rw [Bool.and_eq_true, decide_eq_true_iff, decide_eq_true_iff] at h
  unfold isPySpace
  simp only [Bool.or_eq_false_iff, beq_eq_false_iff_ne]
  refine ⟨⟨⟨⟨⟨?_, ?_⟩, ?_⟩, ?_⟩, ?_⟩, ?_⟩ <;> rintro rfl <;> exact absurd h.1 (by decide)

theorem dropWhile_ne_nil_of_mem {p : Char → Bool} {l : Str} {x : Char}
    (hx : x ∈ l) (hpx : p x = false) : l.dropWhile p ≠ [] := by
  induction l with
  | nil => cases hx
  | cons a as ih =>
    rw [List.dropWhile_cons]
    rcases List.mem_cons.mp hx with rfl | hmem
    · rw [hpx]; simp
    · split
      · exact ih hmem
      · simp

theorem stripL_ne_nil {x : Char} {xs : Str} (hx : isPySpace x = false) :
    stripL (x :: xs) ≠ [] := by
  unfold stripL
  rw [ne_eq, List.reverse_eq_nil_iff]
  have h1 : (x :: xs).dropWhile isPySpace = x :: xs := by
    rw [List.dropWhile_cons, hx]; simp
  rw [h1]
  exact dropWhile_ne_nil_of_mem (by simp) hx

/-! Lemmas about the known-company scan. -/

theorem scanKnown_eq_none {s : Str} {l : List Str}
    (h : ∀ c ∈ l, containsCI c s = false) : scanKnown s l = none := by
  induction l with
  | nil => rfl
  | cons c rest ih =>
    unfold scanKnown
    rw [h c (by simp)]
    simp only [Bool.false_eq_true, if_false]
    exact ih (fun d hd => h d (List.mem_cons_of_mem _ hd))

theorem scanKnown_isSome {s : Str} {l : List Str} {c : Str}
    (hmem : c ∈ l) (hsub : containsCI c s = true) : (scanKnown s l).isSome = true := by
  induction l with
  | nil => cases hmem
  | cons d rest ih =>
    unfold scanKnown
    rcases List.mem_cons.mp hmem with rfl | hmem'
    · rw [hsub]; simp
    · split
      · simp
      · exact ih hmem'

theorem scanKnown_sound {s : Str} {l : List Str} {c : Str}
    (h : scanKnown s l = some c) : c ∈ l ∧ containsCI c s = true := by
  induction l with
  | nil => cases h
  | cons d rest ih =>
    unfold scanKnown at h
    split at h
    · cases h
      exact ⟨by simp, by assumption⟩
    · have := ih h
      exact ⟨List.mem_cons_of_mem _ this.1, this.2⟩

theorem findCI_some_prefixCI {c s : Str} {i : Nat}
    (h : findCI c s = some i) : isPrefixCI c (s.drop i) = true := by
  induction s generalizing i with
  | nil =>
    unfold findCI at h
    split at h
    · cases h
      rename_i he
      rw [List.isEmpty_iff] at he
      subst he
      rfl
    · cases h
  | cons x xs ih =>
    unfold findCI at h
    split at h
    · cases h
      assumption
    · rw [Option.map_eq_some'] at h
      obtain ⟨j, hj, rfl⟩ := h
      simpa using ih hj

theorem takeWhile_of_prefixCI {c rest : Str}
    (hp : isPrefixCI c rest = true) (hterm : ∀ ch ∈ c, isTermC ch = false) :
    rest.takeWhile (fun ch => !(isTermC ch)) =
      rest.take c.length ++ (rest.drop c.length).takeWhile (fun ch => !(isTermC ch)) := by
  induction c generalizing rest with
  | nil => simp
  | cons a as ih =>
    cases rest with
    | nil => cases hp
    | cons b bs =>
      unfold isPrefixCI at hp
      rw [Bool.and_eq_true] at hp
      have hab : lowerChar a = lowerChar b := eq_of_beq hp.1
      have hta : isTermC a = false := hterm a (by simp)
      have htb : isTermC b = false := by
        rw [← isTermC_lowerChar b, ← hab, isTermC_lowerChar a]
        exact hta
      rw [List.takeWhile_cons, htb]
      simp only [Bool.not_false, if_true, List.length_cons, List.take_succ_cons,
        List.drop_succ_cons, List.cons_append, List.cons.injEq, true_and]
      exact ih hp.2 (fun ch hch => hterm ch (List.mem_cons_of_mem _ hch))

/-! Facts about the keyword tables, checked by evaluation. -/

theorem known_companies_no_term : ∀ c ∈ KNOWN_COMPANIES, ∀ ch ∈ c, isTermC ch = false := by
  decide

theorem known_companies_ne_nil : ∀ c ∈ KNOWN_COMPANIES, c ≠ [] := by decide

theorem pharma_keywords_ne_nil : ∀ k ∈ PHARMA_BIOTECH_KEYWORDS, k ≠ [] := by decide

/-- C3.  Any affiliation whose lowercasing contains a known-company
fragment is classified as a company: the known-company rule fires before
the academic-exclusion and generic-keyword rules, and nothing overrides
it. -/
theorem known_company_always_company (s c : Str) (hmem : c ∈ KNOWN_COMPANIES)
    (hsub : containsCI c s = true) : (is_company_affiliation s).1 = true := by
  have h := scanKnown_isSome (s := s) hmem hsub
  rw [Option.isSome_iff_exists] at h
  obtain ⟨d, hd⟩ := h
  unfold is_company_affiliation
  rw [hd]

/-- Witness for C3: "Pfizer Inc., University of X" contains the fragment
"pfizer" and also the academic keyword "university", yet classifies as a
company. -/
theorem known_company_always_company_witness :
    toL "pfizer" ∈ KNOWN_COMPANIES ∧
    containsCI (toL "pfizer") (toL "Pfizer Inc., University of X") = true ∧
    containsCI (toL "university") (toL "Pfizer Inc., University of X") = true ∧
    (is_company_affiliation (toL "Pfizer Inc., University of X")).1 = true :=
  ⟨by decide, by decide, by decide,
   known_company_always_company (toL "Pfizer Inc., University of X") (toL "pfizer")
     (by decide) (by decide)⟩

/-- C4.  When the known-company scan selects fragment `c`, the reported
name is exactly the claim's description: the original-case contiguous run
starting at the (leftmost, case-insensitive) occurrence of the fragment and
extending up to the first comma, semicolon or period, whitespace-stripped;
the literal fragment itself if no such run is found. -/
theorem known_company_name_rule (s c : Str) (h : scanKnown s KNOWN_COMPANIES = some c) :
    is_company_affiliation s = (true, some (specKnownName c s)) := by
  have hs := scanKnown_sound h
  have hstep : is_company_affiliation s =
      (true, some (match knownCapture c s with
                   | some cap => stripL cap
                   | none => c)) := by
    unfold is_company_affiliation
    rw [h]
  rw [hstep]
  unfold specKnownName knownCapture
  cases hi : findCI c s with
  | none => rfl
  | some i =>
    have hp := findCI_some_prefixCI hi
    have hterm : ∀ ch ∈ c, isTermC ch = false := known_companies_no_term c hs.1
    show (true, some (stripL ((s.drop i).take c.length ++
        ((s.drop i).drop c.length).takeWhile (fun ch => !(isTermC ch))))) =
      (true, some (stripL ((s.drop i).takeWhile (fun ch => !(isTermC ch)))))
    rw [takeWhile_of_prefixCI hp hterm]

/-- Witness for C4: in "Global PFIZER Research, Cambridge" the scan selects
"pfizer" and the extracted name is the case-preserving run "PFIZER
Research". -/
theorem known_company_name_rule_witness :
    scanKnown (toL "Global PFIZER Research, Cambridge") KNOWN_COMPANIES =
      some (toL "pfizer") ∧
    is_company_affiliation (toL "Global PFIZER Research, Cambridge") =
      (true, some (toL "PFIZER Research")) := by
  constructor
  · decide
  · rw [known_company_name_rule (toL "Global PFIZER Research, Cambridge") (toL "pfizer")
      (by decide)]
    decide

/-- C5.  An affiliation with no known-company fragment but with an academic
keyword classifies as not-a-company with no name, whatever else (including
generic sector keywords) the string contains. -/
theorem academic_keyword_blocks (s : Str)
    (hno : ∀ c ∈ KNOWN_COMPANIES, containsCI c s = false)
    (hac : ∃ k ∈ ACADEMIC_KEYWORDS, containsCI k s = true) :
    is_company_affiliation s = (false, none) := by
  unfold is_company_affiliation
  rw [scanKnown_eq_none hno]
  obtain ⟨k, hk, hks⟩ := hac
  have hany : ACADEMIC_KEYWORDS.any (fun k => containsCI k s) = true :=
    List.any_eq_true.mpr ⟨k, hk, hks⟩
  rw [hany]
  simp

/-- Witness for C5: "Department of Genomics, Stanford University" carries
the generic keyword "genomics" but also academic keywords and no known
fragment, so it is not a company. -/
theorem academic_keyword_blocks_witness :
    containsCI (toL "genomics") (toL "Department of Genomics, Stanford University") = true ∧
    is_company_affiliation (toL "Department of Genomics, Stanford University") =
      (false, none) :=
  ⟨by decide,
   academic_keyword_blocks (toL "Department of Genomics, Stanford University")
     (by decide) ⟨toL "university", by decide, by decide⟩⟩

/-- The generic-branch cascade of the source equals the spec's description
of it (three ordered patterns, first match wins, else 50-char truncation
with ellipsis marker). -/
theorem genericName_eq_spec (s : Str) : genericName s = specGenericName s := by
  unfold genericName specGenericName
  cases searchPat pat1At s
  · cases searchPat pat2At s
    · cases searchPat pat3At s
      · rfl
      · rfl
    · rfl
  · rfl

/-- C6.  On the generic-keyword branch (no known fragment, no academic
keyword, some generic sector keyword) the name is determined by the three
extraction patterns tried in fixed order on the original-case string, with
the 50-character/ellipsis fallback when none matches. -/
theorem generic_keyword_name_rule (s : Str)
    (hno : ∀ c ∈ KNOWN_COMPANIES, containsCI c s = false)
    (hnoac : ∀ k ∈ ACADEMIC_KEYWORDS, containsCI k s = false)
    (hgen : ∃ k ∈ PHARMA_BIOTECH_KEYWORDS, containsCI k s = true) :
    is_company_affiliation s = (true, some (specGenericName s)) := by
  unfold is_company_affiliation
  rw [scanKnown_eq_none hno]
  have hac : ACADEMIC_KEYWORDS.any (fun k => containsCI k s) = false := by
    rw [List.any_eq_false]
    intro k hk
    simp [hnoac k hk]
  obtain ⟨k, hk, hks⟩ := hgen
  have hph : PHARMA_BIOTECH_KEYWORDS.any (fun k => containsCI k s) = true :=
    List.any_eq_true.mpr ⟨k, hk, hks⟩
  rw [hac, hph, genericName_eq_spec]
  simp

/-- Witness for C6: "Acme Therapeutics, Boston, MA" reaches the generic
branch via the keyword "therapeutics" and the first pattern extracts
"Acme Therapeutics". -/
theorem generic_keyword_name_rule_witness :
    containsCI (toL "therapeutics") (toL "Acme Therapeutics, Boston, MA") = true ∧
    is_company_affiliation (toL "Acme Therapeutics, Boston, MA") =
      (true, some (toL "Acme Therapeutics")) := by
  constructor
  · decide
  · rw [generic_keyword_name_rule (toL "Acme Therapeutics, Boston, MA")
      (by decide) (by decide) ⟨toL "therapeutics", by decide, by decide⟩]
    decide

/-! Lemmas about the per-author affiliation scan. -/

theorem findCompanyHit_cons_pos {a : Str} {rest : List Str}
    (ha : (is_company_affiliation a).1 = true) :
    findCompanyHit (a :: rest) = some (is_company_affiliation a).2 := by
  simp [findCompanyHit, ha]

theorem findCompanyHit_cons_neg {a : Str} {rest : List Str}
    (ha : (is_company_affiliation a).1 = false) :
    findCompanyHit (a :: rest) = findCompanyHit rest := by
  simp [findCompanyHit, ha]

theorem findCompanyHit_isSome_iff (affs : List Str) :
    (findCompanyHit affs).isSome = true ↔
      ∃ aff ∈ affs, (is_company_affiliation aff).1 = true := by
  induction affs with
  | nil => simp [findCompanyHit]
  | cons a rest ih =>
    by_cases h : (is_company_affiliation a).1 = true
    · simp only [findCompanyHit_cons_pos h, Option.isSome_some, true_iff]
      exact ⟨a, by simp, h⟩
    · rw [findCompanyHit_cons_neg (Bool.eq_false_iff.mpr h), ih]
      constructor
      · rintro ⟨aff, hmem, haff⟩
        exact ⟨aff, List.mem_cons_of_mem _ hmem, haff⟩
      · rintro ⟨aff, hmem, haff⟩
        rcases List.mem_cons.mp hmem with rfl | hmem'
        · exact absurd haff h
        · exact ⟨aff, hmem', haff⟩

/-- C7.  Scanning an author's affiliations stops at the first company hit:
the result does not depend on the remaining affiliations, the author's
name is appended exactly once to the non-academic-authors list, and the
extracted name (when non-empty) is added to the company set. -/
theorem author_scan_short_circuit (pre post : List Str) (a : Str)
    (nm em : Str) (corr : Bool) (cas cfs : List Str) (acem : Str)
    (hpre : ∀ b ∈ pre, (is_company_affiliation b).1 = false)
    (ha : (is_company_affiliation a).1 = true) :
    findCompanyHit (pre ++ a :: post) = some (is_company_affiliation a).2 ∧
    (authorStep (cas, cfs, acem) ⟨nm, pre ++ a :: post, corr, em⟩).1 = cas ++ [nm] ∧
    ∀ cn, (is_company_affiliation a).2 = some cn → cn ≠ [] →
      (authorStep (cas, cfs, acem) ⟨nm, pre ++ a :: post, corr, em⟩).2.1 = insertSet cfs cn := by
  have hfind : findCompanyHit (pre ++ a :: post) = some (is_company_affiliation a).2 := by
    induction pre with
    | nil => simpa using findCompanyHit_cons_pos ha
    | cons b pre ih =>
      rw [List.cons_append, findCompanyHit_cons_neg (hpre b (by simp))]
      exact ih (fun d hd => hpre d (List.mem_cons_of_mem _ hd))
  refine ⟨hfind, ?_, ?_⟩
  · unfold authorStep
    rw [hfind]
  · intro cn hcn hne
    unfold authorStep
    rw [hfind, hcn]
    simp [hne]

/-- Witness for C7: author "Doe, J" with a university affiliation first,
then "Moderna, Cambridge" (a hit extracting "Moderna"), then another
affiliation that is never reached. -/
theorem author_scan_short_circuit_witness :
    findCompanyHit ([toL "Harvard University"] ++ toL "Moderna, Cambridge" :: [toL "Novartis Basel"]) =
      some (is_company_affiliation (toL "Moderna, Cambridge")).2 ∧
    (authorStep ([], [], []) ⟨toL "Doe, J",
        [toL "Harvard University"] ++ toL "Moderna, Cambridge" :: [toL "Novartis Basel"],
        false, []⟩).1 = [] ++ [toL "Doe, J"] ∧
    (authorStep ([], [], []) ⟨toL "Doe, J",
        [toL "Harvard University"] ++ toL "Moderna, Cambridge" :: [toL "Novartis Basel"],
        false, []⟩).2.1 = insertSet [] (toL "Moderna") := by
  have h := author_scan_short_circuit [toL "Harvard University"] [toL "Novartis Basel"]
    (toL "Moderna, Cambridge") (toL "Doe, J") [] false [] [] []
    (by decide) (by decide)
  exact ⟨h.1, h.2.1, h.2.2 (toL "Moderna") (by decide) (by decide)⟩

/-! Lemmas projecting the author-loop fold onto its components. -/

theorem authorStep_email (acc : List Str × List Str × Str) (a : AuthorInfo) :
    (authorStep acc a).2.2 = emailStep acc.2.2 a := rfl

theorem foldl_authorStep_email (l : List AuthorInfo) :
    ∀ acc : List Str × List Str × Str,
      (l.foldl authorStep acc).2.2 = l.foldl emailStep acc.2.2 := by
  induction l with
  | nil => intro acc; rfl
  | cons a l ih =>
    intro acc
    rw [List.foldl_cons, List.foldl_cons, ih, authorStep_email]

theorem foldl_emailStep_eq (l : List AuthorInfo) :
    ∀ em : Str, l.foldl emailStep em =
      (lastCorrEmail l).getD (if em ≠ [] then em else (firstAnyEmail l).getD []) := by
  induction l with
  | nil =>
    intro em
    by_cases h : em = []
    · subst h; simp [lastCorrEmail, firstAnyEmail]
    · simp [lastCorrEmail, firstAnyEmail, h]
  | cons a l ih =>
    intro em
    rw [List.foldl_cons, ih]
    cases hl : lastCorrEmail l with
    | some e => simp [lastCorrEmail, hl]
    | none =>
      by_cases hae : a.email = []
      · simp [emailStep, lastCorrEmail, hl, firstAnyEmail, List.find?_cons, hae]
      · by_cases hcorr : a.is_corresponding = true
        · simp [emailStep, lastCorrEmail, hl, firstAnyEmail, List.find?_cons, hae, hcorr]
        · by_cases hem : em = []
          · simp [emailStep, lastCorrEmail, hl, firstAnyEmail, List.find?_cons, hae, hcorr, hem]
          · simp [emailStep, lastCorrEmail, hl, firstAnyEmail, List.find?_cons, hae, hcorr, hem]

theorem authorStep_fst (acc : List Str × List Str × Str) (a : AuthorInfo) :
    (authorStep acc a).1 =
      if (findCompanyHit a.affiliations).isSome then acc.1 ++ [a.name] else acc.1 := by
  unfold authorStep
  cases h : findCompanyHit a.affiliations <;> simp [h]

theorem foldl_authorStep_fst (l : List AuthorInfo) :
    ∀ acc : List Str × List Str × Str, (l.foldl authorStep acc).1 = acc.1 ++ hitNames l := by
  induction l with
  | nil => intro acc; simp [hitNames]
  | cons a l ih =>
    intro acc
    rw [List.foldl_cons, ih, authorStep_fst]
    unfold hitNames
    cases h : findCompanyHit a.affiliations <;>
      simp [h, List.filterMap_cons]

/-- C1 (amended).  The chosen corresponding-author email of an emitted
report row: the assignment in the author loop overwrites on every
corresponding author with a non-empty email, so the LAST such author in
list order wins; only the fallback (any non-empty email) is first-wins;
empty if no author has an email. -/
theorem corresponding_email_selection (p : RawPaper) (r : ReportRow)
    (h : process_paper p = some r) :
    r.correspondingAuthorEmail = amendedEmail (extract_author_info p) := by
  unfold process_paper at h
  split at h
  · cases h
  · split at h
    · cases h
    · split at h
      · cases h
      · split at h
        · cases h
        · dsimp only [] at h
          split at h
          · injection h with h'
            subst h'
            show ((extract_author_info p).foldl authorStep ([], [], [])).2.2 =
              amendedEmail (extract_author_info p)
            rw [foldl_authorStep_email, foldl_emailStep_eq]
            simp [amendedEmail]
          · cases h

def mkAuthor (ln fn aff : String) : RawAuthor :=
  ⟨some (toL ln), some (toL fn), none, none, some (.str (toL aff))⟩

/-- A paper with two corresponding authors, both carrying non-empty
emails, both with company affiliations. -/
def twoCorrPaper : RawPaper :=
  ⟨some (toL "123"),
   some ⟨some (toL "T"),
         some [],
         some [some (mkAuthor "Smith" "Ann" "Pfizer, Corresponding author, b@x.com"),
               some (mkAuthor "Jones" "Bob" "Pfizer, Corresponding author, c@x.com")]⟩⟩

/-- Counterexample to C1 as stated: the first corresponding author with a
non-empty email is "Smith, Ann" with "b@x.com" (the claim's selection,
`claimEmail`), but the emitted row carries "c@x.com" — the last
corresponding author's email. -/
theorem corresponding_email_first_fails :
    (process_paper twoCorrPaper).map (fun r => r.correspondingAuthorEmail) =
      some (toL "c@x.com") ∧
    claimEmail (extract_author_info twoCorrPaper) = toL "b@x.com" :=
  ⟨by decide, by decide⟩

/-- Witness for the amended C1 at the concrete two-corresponding-author
paper. -/
theorem corresponding_email_selection_witness :
    (process_paper twoCorrPaper).map (fun r => r.correspondingAuthorEmail) =
      some (amendedEmail (extract_author_info twoCorrPaper)) := by
  cases hr : process_paper twoCorrPaper with
  | none => exact absurd hr (by decide)
  | some r =>
    rw [Option.map_some']
    rw [corresponding_email_selection twoCorrPaper r hr]

/-! C2: the publication-date extraction.  The source guards the date
assembly with `if "PubDate" in article["Journal"]["JournalIssue"]["PubDate"]`,
i.e. it looks for a key literally named "PubDate" inside the PubDate
substructure itself; a record whose PubDate holds the usual Year/Month/Day
keys therefore renders as "Unknown". -/

def datedParts : List (Str × Str) :=
  [(toL "Year", toL "2020"), (toL "Month", toL "Jan"), (toL "Day", toL "5")]

/-- A paper with a fully populated publication-date substructure and one
company-affiliated author. -/
def datedPaper : RawPaper :=
  ⟨some (toL "99"),
   some ⟨some (toL "T2"), some datedParts,
         some [some (mkAuthor "Lee" "Cam" "Pfizer, New York")]⟩⟩

/-- C2 fails on the code: the date substructure is present (and carries no
key named "PubDate"), the claim's assembly would give "2020 Jan 5", but the
emitted row says "Unknown". -/
theorem pubdate_present_but_unknown :
    (lookupKey datedParts (toL "PubDate")).isSome = false ∧
    (process_paper datedPaper).map (fun r => r.publicationDate) = some (toL "Unknown") ∧
    stripL (getKeyD datedParts (toL "Year") ++ toL " " ++ getKeyD datedParts (toL "Month") ++
            toL " " ++ getKeyD datedParts (toL "Day")) = toL "2020 Jan 5" :=
  ⟨by decide, by decide, by decide⟩

/-! C8: row emission versus company-affiliated authors. -/

theorem hitNames_ne_nil_iff (l : List AuthorInfo) :
    hitNames l ≠ [] ↔
      ∃ au ∈ l, ∃ aff ∈ au.affiliations, (is_company_affiliation aff).1 = true := by
  unfold hitNames
  rw [ne_eq, List.filterMap_eq_nil_iff]
  push_neg
  constructor
  · rintro ⟨au, hmem, hne⟩
    refine ⟨au, hmem, ?_⟩
    by_cases h : (findCompanyHit au.affiliations).isSome = true
    · exact (findCompanyHit_isSome_iff au.affiliations).mp h
    · exact absurd (by simp [Bool.eq_false_iff.mpr h]) hne
  · rintro ⟨au, hmem, aff, haff, hc⟩
    refine ⟨au, hmem, ?_⟩
    have hsome : (findCompanyHit au.affiliations).isSome = true :=
      (findCompanyHit_isSome_iff au.affiliations).mpr ⟨aff, haff, hc⟩
    simp [hsome]

/-- The author-loop accumulator of `process_papers` for one paper. -/
def aggOf (p : RawPaper) : List Str × List Str × Str :=
  (extract_author_info p).foldl authorStep ([], [], [])

/-- The publication-date string computed by `process_papers`. -/
def pubDateOf (dp : List (Str × Str)) : Str :=
  if (lookupKey dp (toL "PubDate")).isSome then
    stripL (getKeyD dp (toL "Year") ++ toL " " ++ getKeyD dp (toL "Month") ++
            toL " " ++ getKeyD dp (toL "Day"))
  else toL "Unknown"

theorem process_paper_eq (pmid title : Str) (dp : List (Str × Str))
    (al : Option (List (Option RawAuthor))) :
    process_paper ⟨some pmid, some ⟨some title, some dp, al⟩⟩ =
      (if (aggOf ⟨some pmid, some ⟨some title, some dp, al⟩⟩).1 ≠ [] then
        some ⟨pmid, title, pubDateOf dp,
              (aggOf ⟨some pmid, some ⟨some title, some dp, al⟩⟩).1,
              (aggOf ⟨some pmid, some ⟨some title, some dp, al⟩⟩).2.1,
              (aggOf ⟨some pmid, some ⟨some title, some dp, al⟩⟩).2.2⟩
      else none) := rfl

/-- C8 (amended).  For a paper whose metadata fields are all present, a
report row is emitted exactly when some author entry has some affiliation
that classifies as a company; without the metadata proviso only the
only-if direction holds (a metadata error skips the paper entirely). -/
theorem report_row_iff_company_author (p : RawPaper) (pmid title : Str)
    (art : RawArticle) (dp : List (Str × Str))
    (h1 : p.pmid = some pmid) (h2 : p.article = some art)
    (h3 : art.articleTitle = some title) (h4 : art.journalPubDate = some dp) :
    (∃ r, process_paper p = some r) ↔
      ∃ au ∈ extract_author_info p, ∃ aff ∈ au.affiliations,
        (is_company_affiliation aff).1 = true := by
  obtain ⟨pm, pa⟩ := p
  obtain ⟨ttl, jpd, al⟩ := art
  dsimp only [] at h1 h2 h3 h4
  subst h1 h3 h4 h2
  rw [process_paper_eq]
  constructor
  · rintro ⟨r, hr⟩
    split at hr
    · rename_i hne
      unfold aggOf at hne
      rw [foldl_authorStep_fst, List.nil_append] at hne
      exact (hitNames_ne_nil_iff _).mp hne
    · cases hr
  · intro hex
    have hne : (aggOf ⟨some pmid, some ⟨some title, some dp, al⟩⟩).1 ≠ [] := by
      unfold aggOf
      rw [foldl_authorStep_fst, List.nil_append]
      exact (hitNames_ne_nil_iff _).mpr hex
    rw [if_pos hne]
    exact ⟨_, rfl⟩

/-- A paper whose author is company-affiliated but whose PMID key is
missing. -/
def noPmidPaper : RawPaper :=
  ⟨none, some ⟨some (toL "T3"), some [],
               some [some (mkAuthor "Kim" "Lee" "Pfizer, Seoul")]⟩⟩

/-- Counterexample to C8 as stated: this paper has an author entry with a
company-classified affiliation, yet no report row is emitted, because the
missing PMID raises and the paper is skipped. -/
theorem report_row_iff_fails_without_metadata :
    process_paper noPmidPaper = none ∧
    ((extract_author_info noPmidPaper).any
      (fun au => au.affiliations.any (fun aff => (is_company_affiliation aff).1))) = true :=
  ⟨by decide, by decide⟩

/-- A paper with full metadata and a company-affiliated author. -/
def goodPaper : RawPaper :=
  ⟨some (toL "7"), some ⟨some (toL "G"), some [],
    some [some (mkAuthor "Ng" "Al" "Amgen, Thousand Oaks")]⟩⟩

/-- Witness for the amended C8 at a concrete paper with full metadata. -/
theorem report_row_iff_company_author_witness :
    (process_paper goodPaper).isSome = true := by
  have h := (report_row_iff_company_author goodPaper (toL "7") (toL "G")
      ⟨some (toL "G"), some [], some [some (mkAuthor "Ng" "Al" "Amgen, Thousand Oaks")]⟩ []
      rfl rfl rfl rfl).mpr
    ⟨⟨toL "Ng, Al", [toL "Amgen, Thousand Oaks"], false, []⟩, by decide,
     toL "Amgen, Thousand Oaks", by decide, by decide⟩
  obtain ⟨r, hr⟩ := h
  rw [hr]
  rfl

/-- C9.  A raw record lacking the author list entirely: extraction treats
the list as empty and the paper yields no report row; every access is
modelled totally, no error escapes. -/
theorem missing_author_list_safe (p : RawPaper) (art : RawArticle)
    (h1 : p.article = some art) (h2 : art.authorList = none) :
    extract_author_info p = [] ∧ process_paper p = none := by
  obtain ⟨pm, pa⟩ := p
  obtain ⟨ttl, jpd, al⟩ := art
  dsimp only [] at h1 h2
  subst h2 h1
  refine ⟨rfl, ?_⟩
  cases pm with
  | none => rfl
  | some pmid =>
    cases ttl with
    | none => rfl
    | some title =>
      cases jpd with
      | none => rfl
      | some dp =>
        rw [process_paper_eq]
        exact if_neg (fun hh => hh rfl)

/-- A paper with metadata present but no author list at all. -/
def noAuthorsPaper : RawPaper := ⟨some (toL "5"), some ⟨some (toL "N"), some [], none⟩⟩

/-- Witness for C9 at a concrete paper lacking its author list. -/
theorem missing_author_list_safe_witness :
    extract_author_info noAuthorsPaper = [] ∧ process_paper noAuthorsPaper = none :=
  missing_author_list_safe noAuthorsPaper ⟨some (toL "N"), some [], none⟩ rfl rfl

/-! C10: a company classification always carries a non-empty name. -/

theorem isPrefixCI_cons {ch : Char} {cs r : Str} (h : isPrefixCI (ch :: cs) r = true) :
    ∃ x xs, r = x :: xs ∧ lowerChar ch = lowerChar x := by
  cases r with
  | nil => cases h
  | cons x xs =>
    unfold isPrefixCI at h
    rw [Bool.and_eq_true] at h
    exact ⟨x, xs, rfl, eq_of_beq h.1⟩

theorem tryK_shape (sufs : List Str) (c0 : Char) (cs : Str) :
    ∀ k cap, tryK sufs c0 cs k = some cap → ∃ t, cap = c0 :: t := by
  intro k
  induction k with
  | zero => intro cap h; cases h
  | succ k ih =>
    intro cap h
    unfold tryK at h
    split at h
    · injection h with h'
      exact ⟨_, h'.symm⟩
    · exact ih cap h

theorem tryK3_shape (sufs : List Str) (c0 : Char) (cs : Str) :
    ∀ k cap, tryK3 sufs c0 cs k = some cap → ∃ t, cap = c0 :: t := by
  intro k
  induction k with
  | zero => intro cap h; cases h
  | succ k ih =>
    intro cap h
    unfold tryK3 at h
    dsimp only [] at h
    split at h
    · injection h with h'
      exact ⟨_, h'.symm⟩
    · exact ih cap h

theorem pat1At_shape : ∀ r cap, pat1At r = some cap →
    ∃ c0 t, cap = c0 :: t ∧ isUpperAZ c0 = true := by
  intro r cap h
  cases r with
  | nil => cases h
  | cons c0 cs =>
    have h' : (if isUpperAZ c0 = true then
        tryK typeSuffixes c0 cs (cs.takeWhile isWordClass).length else none) = some cap := h
    by_cases hu : isUpperAZ c0 = true
    · rw [if_pos hu] at h'
      obtain ⟨t, rfl⟩ := tryK_shape _ _ _ _ _ h'
      exact ⟨c0, t, rfl, hu⟩
    · rw [if_neg hu] at h'
      cases h'

theorem pat2At_shape : ∀ r cap, pat2At r = some cap →
    ∃ c0 t, cap = c0 :: t ∧ isUpperAZ c0 = true := by
  intro r cap h
  cases r with
  | nil => cases h
  | cons c0 cs =>
    have h' : (if isUpperAZ c0 = true then
        tryK legalSuffixes c0 cs (cs.takeWhile isWordClass).length else none) = some cap := h
    by_cases hu : isUpperAZ c0 = true
    · rw [if_pos hu] at h'
      obtain ⟨t, rfl⟩ := tryK_shape _ _ _ _ _ h'
      exact ⟨c0, t, rfl, hu⟩
    · rw [if_neg hu] at h'
      cases h'

theorem pat3At_shape : ∀ r cap, pat3At r = some cap →
    ∃ c0 t, cap = c0 :: t ∧ isUpperAZ c0 = true := by
  intro r cap h
  cases r with
  | nil => cases h
  | cons c0 cs =>
    have h' : (if isUpperAZ c0 = true then
        tryK3 legalSuffixes c0 cs (cs.takeWhile isWordClass).length else none) = some cap := h
    by_cases hu : isUpperAZ c0 = true
    · rw [if_pos hu] at h'
      obtain ⟨t, rfl⟩ := tryK3_shape _ _ _ _ _ h'
      exact ⟨c0, t, rfl, hu⟩
    · rw [if_neg hu] at h'
      cases h'

theorem searchPat_shape {f : Str → Option Str}
    (hf : ∀ r cap, f r = some cap → ∃ c0 t, cap = c0 :: t ∧ isUpperAZ c0 = true) :
    ∀ s cap, searchPat f s = some cap →
      ∃ c0 t, cap = c0 :: t ∧ isUpperAZ c0 = true := by
  intro s
  induction s with
  | nil => intro cap h; cases h
  | cons c rest ih =>
    intro cap h
    unfold searchPat at h
    split at h
    · rename_i r hr
      injection h with h'
      subst h'
      exact hf _ _ hr
    · exact ih cap h

theorem ne_nil_of_containsCI {k s : Str} (hk : k ≠ []) (h : containsCI k s = true) :
    s ≠ [] := by
  intro hnil
  subst hnil
  cases k with
  | nil => exact hk rfl
  | cons a as => simp [containsCI, findCI] at h

theorem genericName_ne_nil {s : Str}
    (hph : (PHARMA_BIOTECH_KEYWORDS.any fun k => containsCI k s) = true) :
    genericName s ≠ [] := by
  have hs : s ≠ [] := by
    obtain ⟨k, hk, hks⟩ := List.any_eq_true.mp hph
    exact ne_nil_of_containsCI (pharma_keywords_ne_nil k hk) hks
  unfold genericName
  cases h1 : searchPat pat1At s with
  | some cap =>
    obtain ⟨c0, t, rfl, hc0⟩ := searchPat_shape pat1At_shape s cap h1
    exact stripL_ne_nil (isPySpace_of_upperAZ hc0)
  | none =>
    cases h2 : searchPat pat2At s with
    | some cap =>
      obtain ⟨c0, t, rfl, hc0⟩ := searchPat_shape pat2At_shape s cap h2
      exact stripL_ne_nil (isPySpace_of_upperAZ hc0)
    | none =>
      cases h3 : searchPat pat3At s with
      | some cap =>
        obtain ⟨c0, t, rfl, hc0⟩ := searchPat_shape pat3At_shape s cap h3
        exact stripL_ne_nil (isPySpace_of_upperAZ hc0)
      | none =>
        show (if 50 < s.length then s.take 50 ++ toL "..." else s) ≠ []
        by_cases hlen : 50 < s.length
        · rw [if_pos hlen]
          intro hh
          rw [List.append_eq_nil] at hh
          exact absurd hh.2 (by decide)
        · rw [if_neg hlen]
          exact hs

theorem known_companies_head : ∀ c ∈ KNOWN_COMPANIES,
    c ≠ [] ∧ isPySpace (c.headD ' ') = false := by decide

/-- C10.  Whenever `is_company_affiliation` answers true, the accompanying
company name is present and non-empty, so the aggregator's non-empty-name
guard never discards a company hit. -/
theorem company_name_nonempty (s : Str) (h : (is_company_affiliation s).1 = true) :
    ∃ n, (is_company_affiliation s).2 = some n ∧ n ≠ [] := by
  cases hk : scanKnown s KNOWN_COMPANIES with
  | some c =>
    have hval : is_company_affiliation s =
        (true, some (match knownCapture c s with | some cap => stripL cap | none => c)) := by
      unfold is_company_affiliation
      rw [hk]
    rw [hval]
    have hs := scanKnown_sound hk
    have hcfact := known_companies_head c hs.1
    refine ⟨_, rfl, ?_⟩
    cases hc : knownCapture c s with
    | none => exact hcfact.1
    | some cap =>
      unfold knownCapture at hc
      split at hc
      · cases hc
      · rename_i i hi
        injection hc with hc'
        obtain ⟨ch, cs', hc0⟩ : ∃ ch cs', c = ch :: cs' := by
          cases c with
          | nil => exact absurd rfl hcfact.1
          | cons ch cs' => exact ⟨ch, cs', rfl⟩
        subst hc0
        have hch : isPySpace ch = false := by simpa using hcfact.2
        have hp := findCI_some_prefixCI hi
        obtain ⟨x, xs, hdrop, hxch⟩ := isPrefixCI_cons hp
        have hx : isPySpace x = false := by
          rw [← isPySpace_lowerChar x, ← hxch, isPySpace_lowerChar ch]
          exact hch
        rw [hdrop] at hc'
        simp only [List.length_cons, List.take_succ_cons, List.cons_append] at hc'
        subst hc'
        exact stripL_ne_nil hx
  | none =>
    have hval : is_company_affiliation s =
        (if ACADEMIC_KEYWORDS.any (fun k => containsCI k s) then (false, none)
         else if PHARMA_BIOTECH_KEYWORDS.any (fun k => containsCI k s) then
           (true, some (genericName s))
         else (false, none)) := by
      unfold is_company_affiliation
      rw [hk]
    rw [hval] at h ⊢
    by_cases hac : (ACADEMIC_KEYWORDS.any fun k => containsCI k s) = true
    · rw [if_pos hac] at h
      simp at h
    · rw [if_neg hac] at h ⊢
      by_cases hph : (PHARMA_BIOTECH_KEYWORDS.any fun k => containsCI k s) = true
      · rw [if_pos hph]
        exact ⟨genericName s, rfl, genericName_ne_nil hph⟩
      · rw [if_neg hph] at h
        simp at h

/-- Witness for C10 at "Vaccines R Us": classified as a company through the
generic keyword "vaccines", with a non-empty name. -/
theorem company_name_nonempty_witness :
    (is_company_affiliation (toL "Vaccines R Us")).1 = true ∧
    ∃ n, (is_company_affiliation (toL "Vaccines R Us")).2 = some n ∧ n ≠ [] :=
  ⟨by decide, company_name_nonempty (toL "Vaccines R Us") (by decide)⟩
